import Mathlib

/-
Verification of the structured-concurrency core and utility modules of the
`effect` repository.

Sources embedded here:
  * src/packages/effect/src/Effect/scope.ts — the fork/race combinators
    (forkDaemon, forkIn, forkScopeWith, raceWith);
  * src/unnamed/part_001 — the Cron expression parser and matcher;
  * src/packages/system/test/crypto/index.ts — the PBKDF2 password
    hashing/verification service.

The Scope implementation, the Cause algebra and the race-resolution step of
the interpreter are not among the provided sources (scope.ts only imports
them); those are modelled from the spec, and each such definition's doc
comment says so.
-/

namespace EffectCore

/-- Modelled from the spec: the `Cause` failure algebra (spec §3) —
`Fail(error)` (typed, recoverable), `Die(defect)` (opaque defect),
`Interrupt(fiberId)` (cancellation), `Then(Cause, Cause)` (sequential
aggregation) and `Both(Cause, Cause)` (concurrent aggregation).  The Cause
implementation itself is not among the provided sources.  `Then` is spelled
`andThen` because `then` is a Lean keyword; defects are modelled as opaque
strings and fiber ids as naturals. -/
inductive Cause (E : Type) : Type where
  | fail (error : E)
  | die (defect : String)
  | interrupt (fiberId : Nat)
  | andThen (first : Cause E) (second : Cause E)
  | both (left : Cause E) (right : Cause E)
  deriving DecidableEq

/-- The ordered list of leaf failures of a `Cause`: flattening per spec §8
("flattening any Cause to an ordered list of leaves"). -/
def Cause.leaves {E : Type} : Cause E → List (Cause E)
  | .fail e => [.fail e]
  | .die d => [.die d]
  | .interrupt i => [.interrupt i]
  | .andThen a b => a.leaves ++ b.leaves
  | .both a b => a.leaves ++ b.leaves

/-- The `Exit` result algebra (spec §3): `Success(value)` or
`Failure(Cause)`. -/
inductive Exit (E A : Type) : Type where
  | success (value : A)
  | failure (cause : Cause E)

/-- Modelled from the spec: a `Scope` is a node of a lifetime tree holding,
in registration order, its entries — each either a registered finalizer
(payload type `F`, `Sum.inl`) or a child scope (`Sum.inr`) — together with
its closed flag.  The Scope implementation is not among the provided
sources (scope.ts imports it from ../Scope). -/
inductive Scope (F : Type) : Type where
  | node (closed : Bool) (entries : List (F ⊕ Scope F))

mutual

/-- Modelled from the spec: the finalizers `close` executes, in execution
order.  A closed scope executes nothing (closing is idempotent); an open
scope walks its entries in reverse registration order, running each
finalizer and fully draining each child scope as it is reached. -/
def Scope.executed {F : Type} : Scope F → List F
  | .node true _ => []
  | .node false entries => drainRev entries

/-- Drain a registration list in reverse order: later-registered entries
run first. -/
def drainRev {F : Type} : List (F ⊕ Scope F) → List F
  | [] => []
  | e :: rest => drainRev rest ++ drainOne e

/-- Drain a single entry: a finalizer runs once; a child scope is fully
drained (recursively) before the parent continues. -/
def drainOne {F : Type} : F ⊕ Scope F → List F
  | .inl f => [f]
  | .inr s => Scope.executed s

end

/-- Mark a scope closed (the state left behind by `close`). -/
def Scope.markClosed {F : Type} : Scope F → Scope F
  | .node _ entries => .node true entries

/-- Modelled from the spec: `close(scope)` runs registered finalizers in
reverse order, recursively closes child scopes, then marks the scope
closed.  Returns the executed finalizers (in execution order) together
with the closed scope. -/
def Scope.close {F : Type} (s : Scope F) : List F × Scope F :=
  (s.executed, s.markClosed)

mutual

/-- All finalizers registered anywhere in a scope tree, one occurrence per
registration. -/
def Scope.allFins {F : Type} : Scope F → List F
  | .node _ entries => finsList entries

/-- All finalizers of a registration list. -/
def finsList {F : Type} : List (F ⊕ Scope F) → List F
  | [] => []
  | e :: rest => finsOne e ++ finsList rest

/-- All finalizers of one entry. -/
def finsOne {F : Type} : F ⊕ Scope F → List F
  | .inl f => [f]
  | .inr s => Scope.allFins s

end

mutual

/-- Every scope in the tree (the root and all descendants) is still open. -/
def Scope.allOpen {F : Type} : Scope F → Bool
  | .node closed entries => !closed && allOpenList entries

/-- Every scope reachable from a registration list is still open. -/
def allOpenList {F : Type} : List (F ⊕ Scope F) → Bool
  | [] => true
  | e :: rest => allOpenOne e && allOpenList rest

/-- Every scope reachable from one entry is still open. -/
def allOpenOne {F : Type} : F ⊕ Scope F → Bool
  | .inl _ => true
  | .inr s => Scope.allOpen s

end

/-- Modelled from the spec: the single process-wide global scope, existing
for the lifetime of the process and never closed by ordinary means
(spec §3).  For the fork combinators only its identity matters. -/
def globalScope {F : Type} : Scope F := .node false []

/-- A handle to a running fiber, modelled opaquely (the Fiber implementation
is not among the provided sources; the race continuations receive such a
handle and the combinators never inspect it). -/
structure FiberHandle : Type where
  id : Nat

/-- The `Task` description algebra (spec §3), as a closed tagged-variant
type.  `IFork`, `IGetForkScope` and `IRaceWith` are the primitive nodes
constructed by scope.ts; `Pure`, `Fail`, `FlatMap` and `Ensuring` complete
the data model of spec §3 (the `Async` node, which no claim touches, is
omitted).  TypeScript's independent generic parameters are collapsed onto
one error type `E` and one value type `A`; a fork's target scope field is
`Option (Scope (Exit E A))`, mirroring `O.Option<Scope<Exit<any, any>>>`. -/
inductive Task (E A : Type) : Type where
  | pureT (value : A)
  | failT (cause : Cause E)
  | flatMapT (task : Task E A) (k : A → Task E A)
  | ensuringT (task : Task E A) (finalizer : Task E A)
  | iFork (task : Task E A) (scope : Option (Scope (Exit E A)))
  | iGetForkScope (f : Scope (Exit E A) → Task E A)
  | iRaceWith (left : Task E A) (right : Task E A)
      (leftWins : Exit E A → FiberHandle → Task E A)
      (rightWins : Exit E A → FiberHandle → Task E A)
      (scope : Option (Scope (Exit E A)))

/-- scope.ts `forkDaemon` (lines 15–19): forks the effect into a new fiber
attached to the global scope — `new IFork(value, O.some(globalScope))`. -/
def forkDaemon {E A : Type} (value : Task E A) : Task E A :=
  .iFork value (some globalScope)

/-- scope.ts `forkIn` (lines 32–35): forks the effect into its own fiber
attached to the given scope — `new IFork(value, O.some(scope))`. -/
def forkIn {E A : Type} (scope : Scope (Exit E A)) (value : Task E A) : Task E A :=
  .iFork value (some scope)

/-- scope.ts `forkScopeWith` (lines 40–44): retrieves the scope that will be
used to supervise forked effects — `new IGetForkScope(f)`. -/
def forkScopeWith {E A : Type} (f : Scope (Exit E A) → Task E A) : Task E A :=
  .iGetForkScope f

/-- scope.ts `raceWith` (lines 50–58) with its scope argument given
explicitly — `new IRaceWith(left, right, leftWins, rightWins, scope)`. -/
def raceWith {E A : Type} (left right : Task E A)
    (leftWins rightWins : Exit E A → FiberHandle → Task E A)
    (scope : Option (Scope (Exit E A))) : Task E A :=
  .iRaceWith left right leftWins rightWins scope

/-- scope.ts `raceWith` as called without a scope argument: the TypeScript
declaration defaults the parameter with `scope: O.Option<...> = O.none`. -/
def raceWithDefault {E A : Type} (left right : Task E A)
    (leftWins rightWins : Exit E A → FiberHandle → Task E A) : Task E A :=
  raceWith left right leftWins rightWins none

/-- Whether a task description is an `IFork` node. -/
def Task.isFork {E A : Type} : Task E A → Bool
  | .iFork _ _ => true
  | _ => false

/-- The forked child task of an `IFork` node. -/
def Task.forkChild {E A : Type} : Task E A → Option (Task E A)
  | .iFork t _ => some t
  | _ => none

/-- The target scope field of an `IFork` node. -/
def Task.forkScope {E A : Type} : Task E A → Option (Option (Scope (Exit E A)))
  | .iFork _ sc => some sc
  | _ => none

/-- The continuation stored in an `IGetForkScope` node. -/
def Task.getForkScopeK {E A : Type} : Task E A → Option (Scope (Exit E A) → Task E A)
  | .iGetForkScope f => some f
  | _ => none

/-- The left branch stored in an `IRaceWith` node. -/
def Task.raceLeft {E A : Type} : Task E A → Option (Task E A)
  | .iRaceWith l _ _ _ _ => some l
  | _ => none

/-- The right branch stored in an `IRaceWith` node. -/
def Task.raceRight {E A : Type} : Task E A → Option (Task E A)
  | .iRaceWith _ r _ _ _ => some r
  | _ => none

/-- The `leftWins` continuation stored in an `IRaceWith` node. -/
def Task.raceLeftWins {E A : Type} :
    Task E A → Option (Exit E A → FiberHandle → Task E A)
  | .iRaceWith _ _ lw _ _ => some lw
  | _ => none

/-- The `rightWins` continuation stored in an `IRaceWith` node. -/
def Task.raceRightWins {E A : Type} :
    Task E A → Option (Exit E A → FiberHandle → Task E A)
  | .iRaceWith _ _ _ rw _ => some rw
  | _ => none

/-- The target scope field of an `IRaceWith` node. -/
def Task.raceScope {E A : Type} : Task E A → Option (Option (Scope (Exit E A)))
  | .iRaceWith _ _ _ _ sc => some sc
  | _ => none

/-- Modelled from the spec: when one branch of a race reaches `Done` first,
the interpreter invokes the matching continuation of the `IRaceWith` node
with that branch's Exit and the handle of the other, still-running fiber;
the composite task continues as exactly the task the continuation returns
(spec §4.5).  The race primitive inserts nothing else — in particular no
interruption of the loser. -/
def raceResolve {E A : Type} (t : Task E A) (leftWon : Bool)
    (winnerExit : Exit E A) (loser : FiberHandle) : Option (Task E A) :=
  match t with
  | .iRaceWith _ _ lw rw _ =>
      some (if leftWon then lw winnerExit loser else rw winnerExit loser)
  | _ => none

end EffectCore

/-! ## Cron (src/unnamed/part_001) -/

/-- part_001 SegmentOptions (lines 400-405): the inclusive bounds of one
cron segment and its name aliases.  The `segment` name is only interpolated
into error messages and is omitted; an absent alias table is the empty
list.  Alias keys are character lists, like every string of this
embedding. -/
structure SegmentOptions : Type where
  minB : Int
  maxB : Int
  aliases : List (List Char × Int)

/-- part_001 ParseError (lines 145-164): the message and the offending
input.  Every construction site passes the input, so it is not optional
here. -/
structure ParseError : Type where
  message : String
  input : List Char
  deriving DecidableEq

instance {ε α : Type} [DecidableEq ε] [DecidableEq α] : DecidableEq (Except ε α) := fun
  | .ok a, .ok b =>
      if h : a = b then isTrue (by rw [h]) else isFalse (by simp [h])
  | .ok _, .error _ => isFalse (by simp)
  | .error _, .ok _ => isFalse (by simp)
  | .error e, .error f =>
      if h : e = f then isTrue (by rw [h]) else isFalse (by simp [h])

/-- part_001 minuteOptions (lines 407-411). -/
def minuteOptions : SegmentOptions := ⟨0, 59, []⟩

/-- part_001 hourOptions (lines 413-417). -/
def hourOptions : SegmentOptions := ⟨0, 23, []⟩

/-- part_001 dayOptions (lines 419-423). -/
def dayOptions : SegmentOptions := ⟨1, 31, []⟩

/-- part_001 monthOptions (lines 425-443). -/
def monthOptions : SegmentOptions :=
  ⟨1, 12,
    [("jan".data, 1), ("feb".data, 2), ("mar".data, 3), ("apr".data, 4),
     ("may".data, 5), ("jun".data, 6), ("jul".data, 7), ("aug".data, 8),
     ("sep".data, 9), ("oct".data, 10), ("nov".data, 11), ("dec".data, 12)]⟩

/-- part_001 weekdayOptions (lines 445-458). -/
def weekdayOptions : SegmentOptions :=
  ⟨0, 6,
    [("sun".data, 0), ("mon".data, 1), ("tue".data, 2), ("wed".data, 3),
     ("thu".data, 4), ("fri".data, 5), ("sat".data, 6)]⟩

/-- Split a character list at the first occurrence of `c` (the
`indexOf`/`slice` pattern of splitStep and splitRange); `none` when `c`
does not occur. -/
def splitFirst (c : Char) : List Char → Option (List Char × List Char)
  | [] => none
  | x :: xs =>
      if x = c then some ([], xs)
      else
        match splitFirst c xs with
        | none => none
        | some (a, b) => some (x :: a, b)

/-- JavaScript `String.prototype.split` with a one-character separator:
splits at every occurrence; the empty string yields `[""]`. -/
def splitAll (c : Char) : List Char → List (List Char)
  | [] => [[]]
  | x :: xs =>
      if x = c then [] :: splitAll c xs
      else
        match splitAll c xs with
        | [] => [[x]]
        | a :: rest => (x :: a) :: rest

/-- part_001 splitStep (lines 526-533): the text before the first "/" and,
when a "/" occurs, everything after it. -/
def splitStep (input : List Char) : List Char × Option (List Char) :=
  match splitFirst '/' input with
  | none => (input, none)
  | some (a, b) => (a, some b)

/-- part_001 aliasOrValue (lines 544-546).  The parameter `numInt` stands
for JavaScript's `Number(...)` coercion combined with the
`Number.isInteger` test: `numInt s = some n` when `Number(s)` is the
integer `n`, and `none` when it is NaN or not integral.  Every parsed
number is guarded by `Number.isInteger` before any other use, so only this
much of the coercion is observable, and the theorems below hold for every
such function. -/
def aliasOrValue (numInt : List Char → Option Int)
    (aliases : List (List Char × Int)) (field : List Char) : Option Int :=
  match aliases.lookup (field.map Char.toLower) with
  | some v => some v
  | none => numInt field

/-- part_001 splitRange (lines 535-542): resolve the text before and, when
a "-" occurs, after the first "-" through aliasOrValue. -/
def splitRange (numInt : List Char → Option Int)
    (aliases : List (List Char × Int)) (input : List Char) :
    Option Int × Option (Option Int) :=
  match splitFirst '-' input with
  | none => (aliasOrValue numInt aliases input, none)
  | some (a, b) =>
      (aliasOrValue numInt aliases a, some (aliasOrValue numInt aliases b))

/-- The value-collecting loop `for (let i = lo; i <= hi; i += step)` of
parseSegment (lines 487-489 and 512-514).  Both call sites have already
checked `1 ≤ step`; the guard on `step` here only makes the recursion
total (JavaScript would never terminate on `step ≤ 0`, and parseSegment
never reaches that case). -/
def rangeStep (lo hi step : Int) : List Int :=
  if _h : lo ≤ hi ∧ 1 ≤ step then lo :: rangeStep (lo + step) hi step
  else []
termination_by (hi + 1 - lo).toNat
decreasing_by omega

/-- part_001 parseSegment, step validation (lines 474-484). -/
def checkStep (numInt : List Char → Option Int) (opts : SegmentOptions)
    (input : List Char) (stepStr : Option (List Char)) :
    Except ParseError (Option Int) :=
  match stepStr with
  | none => .ok none
  | some s =>
      match numInt s with
      | none => .error ⟨"Expected step value to be a positive integer", input⟩
      | some st =>
          if st < 1 then
            .error ⟨"Expected step value to be greater than 0", input⟩
          else if st > opts.maxB then
            .error ⟨"Expected step value to be less than " ++ toString opts.maxB,
              input⟩
          else .ok (some st)

/-- part_001 parseSegment, handling of a non-starred field once split by
splitRange (lines 491-515): the left endpoint must be an in-bounds
integer; with no right endpoint the single value is added, otherwise the
right endpoint is validated the same way, the range must not be inverted,
and the stepped range is added to the accumulated set. -/
def handleRange (opts : SegmentOptions) (input : List Char)
    (step : Option Int) (values : Finset Int) :
    Option Int → Option (Option Int) → Except ParseError (Finset Int)
  | none, _ => .error ⟨"Expected a positive integer", input⟩
  | some left, rightN =>
      if left < opts.minB ∨ left > opts.maxB then
        .error ⟨"Expected a value between " ++ toString opts.minB ++
          " and " ++ toString opts.maxB, input⟩
      else
        match rightN with
        | none => .ok (insert left values)
        | some none => .error ⟨"Expected a positive integer", input⟩
        | some (some right) =>
            if right < opts.minB ∨ right > opts.maxB then
              .error ⟨"Expected a value between " ++ toString opts.minB ++
                " and " ++ toString opts.maxB, input⟩
            else if left > right then
              .error ⟨"Invalid value range", input⟩
            else
              .ok (values ∪ (rangeStep left right (step.getD 1)).toFinset)

/-- part_001 parseSegment, handling of one field's value part (lines
486-516): a starred field adds the stepped full range; otherwise the field
is split by splitRange (the JS destructuring `const [left, right] = ...`
reads both components) and handled by handleRange. -/
def handleRaw (numInt : List Char → Option Int) (opts : SegmentOptions)
    (input raw : List Char) (step : Option Int) (values : Finset Int) :
    Except ParseError (Finset Int) :=
  if raw = "*".data then
    .ok (values ∪ (rangeStep opts.minB opts.maxB (step.getD 1)).toFinset)
  else
    handleRange opts input step values
      (splitRange numInt opts.aliases raw).1
      (splitRange numInt opts.aliases raw).2

/-- part_001 parseSegment, the loop over the comma-separated fields (lines
464-523): a bare "*" field returns the empty set at once (no restriction);
otherwise the field's step and values are validated and accumulated, and
whenever the accumulated set reaches the segment's capacity
(`maxB - minB + 1`, line 518) the empty set is returned instead. -/
def parseFields (numInt : List Char → Option Int) (opts : SegmentOptions)
    (input : List Char) :
    List (List Char) → Finset Int → Except ParseError (Finset Int)
  | [], values => .ok values
  | field :: rest, values =>
      let rs := splitStep field
      if rs.1 = "*".data ∧ rs.2 = none then .ok ∅
      else
        match checkStep numInt opts input rs.2 with
        | .error e => .error e
        | .ok step =>
            match handleRaw numInt opts input rs.1 step values with
            | .error e => .error e
            | .ok values' =>
                if opts.maxB - opts.minB + 1 ≤ (values'.card : Int) then .ok ∅
                else parseFields numInt opts input rest values'

/-- part_001 parseSegment (lines 460-524): split the input on commas and
run the field loop with an initially empty value set. -/
def parseSegment (numInt : List Char → Option Int) (input : List Char)
    (opts : SegmentOptions) : Except ParseError (Finset Int) :=
  parseFields numInt opts input (splitAll ',' input) ∅

/-- Decimal digit accumulator for `decNum`. -/
def decNumAux : List Char → Nat → Option Nat
  | [], acc => some acc
  | c :: rest, acc =>
      if 48 ≤ c.toNat ∧ c.toNat ≤ 57 then
        decNumAux rest (acc * 10 + (c.toNat - 48))
      else none

/-- One concrete instance of the `numInt` parameter (JavaScript `Number`
restricted to unsigned decimal digit strings), used to evaluate the parser
on concrete cron expressions; the theorems themselves hold for every
`numInt`. -/
def decNum (s : List Char) : Option Int :=
  match s with
  | [] => none
  | _ => (decNumAux s 0).map Int.ofNat

/-- part_001 Cron (lines 36-44 and make, lines 102-125): the five
constraint sets.  A JavaScript `Set<number>` is modelled as `Finset Int`
(`make` sorts the values before building the `Set`, which only changes the
iteration order, never membership or size — the notions the claims are
about); the external `DateTime.TimeZone` is modelled opaquely as a
string. -/
structure Cron : Type where
  tz : Option String
  minutes : Finset Int
  hours : Finset Int
  days : Finset Int
  months : Finset Int
  weekdays : Finset Int
  deriving DecidableEq

/-- part_001 parse (lines 198-212): split the expression on single spaces,
drop empty segments, require exactly five, parse each against its options
(`Either.all` applies them in the order minutes, hours, days, months,
weekdays and returns the first error) and assemble the Cron via `make`. -/
def Cron.parse (numInt : List Char → Option Int) (cron : List Char)
    (tz : Option String) : Except ParseError Cron :=
  match (splitAll ' ' cron).filter (fun s => s ≠ []) with
  | [mi, ho, da, mo, we] =>
      match parseSegment numInt mi minuteOptions with
      | .error e => .error e
      | .ok minutes =>
          match parseSegment numInt ho hourOptions with
          | .error e => .error e
          | .ok hours =>
              match parseSegment numInt da dayOptions with
              | .error e => .error e
              | .ok days =>
                  match parseSegment numInt mo monthOptions with
                  | .error e => .error e
                  | .ok months =>
                      match parseSegment numInt we weekdayOptions with
                      | .error e => .error e
                      | .ok weekdays =>
                          .ok ⟨tz, minutes, hours, days, months, weekdays⟩
  | _ => .error ⟨"Invalid number of segments in cron expression", cron⟩

/-- The parts of a date that Cron.match consults — the fields of
`dateTime.toParts` read by part_001 lines 238-262.  The conversion from a
concrete date to these parts (internal/dateTime.js, including the optional
time-zone adjustment of line 235) is external to the provided sources, so
the matcher is embedded as a function of the parts themselves. -/
structure DateParts : Type where
  minutes : Int
  hours : Int
  day : Int
  month : Int
  weekDay : Int
  deriving DecidableEq

/-- part_001 match (lines 233-263), on the date's parts: the minute, hour
and month checks in order, then the day-of-month/weekday logic — both sets
empty passes, exactly one non-empty consults that set, both non-empty
passes when either matches. -/
def Cron.matchParts (cron : Cron) (parts : DateParts) : Bool :=
  if cron.minutes.card ≠ 0 ∧ parts.minutes ∉ cron.minutes then false
  else if cron.hours.card ≠ 0 ∧ parts.hours ∉ cron.hours then false
  else if cron.months.card ≠ 0 ∧ parts.month ∉ cron.months then false
  else if cron.days.card = 0 ∧ cron.weekdays.card = 0 then true
  else if cron.weekdays.card = 0 then decide (parts.day ∈ cron.days)
  else if cron.days.card = 0 then decide (parts.weekDay ∈ cron.weekdays)
  else decide (parts.day ∈ cron.days ∨ parts.weekDay ∈ cron.weekdays)

/-! ## Password hashing (src/packages/system/test/crypto/index.ts) -/

/-- A byte, as stored in a Node Buffer. -/
abbrev Byte := Fin 256

/-- `Buffer.writeUInt32BE`: the four big-endian bytes of a 32-bit value. -/
def uint32BE (v : Nat) : List Byte :=
  [⟨v / 16777216 % 256, by omega⟩, ⟨v / 65536 % 256, by omega⟩,
   ⟨v / 256 % 256, by omega⟩, ⟨v % 256, by omega⟩]

/-- `Buffer.readUInt32BE` at offset `off`.  (Node throws when fewer than
four bytes are available past the offset; the theorems below only read
offsets backed by the length hypotheses they carry, where the default
value is never consulted.) -/
def readUInt32BE (l : List Byte) (off : Nat) : Nat :=
  (l.getD off 0).val * 16777216 + (l.getD (off + 1) 0).val * 65536 +
    (l.getD (off + 2) 0).val * 256 + (l.getD (off + 3) 0).val

/-- The lowercase hex digit of a value below 16. -/
def hexDigitChar (n : Fin 16) : Char :=
  if n.val < 10 then Char.ofNat (48 + n.val) else Char.ofNat (87 + n.val)

/-- Node `buffer.toString("hex")`: two lowercase hex digits per byte. -/
def bytesToHex : List Byte → List Char
  | [] => []
  | b :: rest =>
      hexDigitChar ⟨b.val / 16, by have := b.isLt; omega⟩ ::
        hexDigitChar ⟨b.val % 16, by omega⟩ :: bytesToHex rest

/-- The hex value of a character (0-9, a-f, A-F). -/
def hexDigitVal (c : Char) : Option (Fin 16) :=
  if h : 48 ≤ c.toNat ∧ c.toNat ≤ 57 then some ⟨c.toNat - 48, by omega⟩
  else if h : 97 ≤ c.toNat ∧ c.toNat ≤ 102 then some ⟨c.toNat - 87, by omega⟩
  else if h : 65 ≤ c.toNat ∧ c.toNat ≤ 70 then some ⟨c.toNat - 55, by omega⟩
  else none

/-- Node `Buffer.from(text, "hex")`: consume hex-digit pairs, stopping at
the first pair that is not two hex digits (a trailing lone digit is
dropped). -/
def hexToBytes : List Char → List Byte
  | c1 :: c2 :: rest =>
      match hexDigitVal c1, hexDigitVal c2 with
      | some hi, some lo =>
          ⟨hi.val * 16 + lo.val, by have := hi.isLt; have := lo.isLt; omega⟩ ::
            hexToBytes rest
      | _, _ => []
  | _ => []

/-- index.ts InvalidPassword (lines 40-42). -/
inductive InvalidPassword : Type where
  | mk
  deriving DecidableEq

/-- index.ts PBKDF2Config (lines 10-29); the digest name is opaque to the
claims. -/
structure PBKDF2Config : Type where
  hashBytes : Nat
  saltBytes : Nat
  iterations : Nat
  digest : String

/-- index.ts hashPassword (lines 50-89), with Node's `crypto.randomBytes`
and `crypto.pbkdf2` passed in as deterministic total functions
(`randomBytes n` the generated salt, `pbkdf2 password salt iterations
keylen digest` the derived key) — the modelling the claim itself fixes.
Node's error callbacks (`die`) are unreachable under total modelling.  The
combined buffer is exactly lines 70-79: the 4-byte big-endian salt length
at offset 0, the 4-byte big-endian iteration count at offset 4, the salt
at offset 8 and the hash right after the salt; the result is the buffer's
hex rendering (line 83). -/
def hashPassword
    (pbkdf2 : String → List Byte → Nat → Nat → String → List Byte)
    (randomBytes : Nat → List Byte)
    (config : PBKDF2Config) (password : String) : List Char :=
  let salt := randomBytes config.saltBytes
  let hash := pbkdf2 password salt config.iterations config.hashBytes config.digest
  bytesToHex (uint32BE salt.length ++ uint32BE config.iterations ++ salt ++ hash)

/-- index.ts verifyPassword (lines 90-119): decode the hex text, read the
salt length at offset 0 and the iteration count at offset 4, slice out the
salt (offset 8, `saltBytes` long) and the stored hash (from offset
`saltBytes + 8`), re-derive the key with those parameters and succeed
exactly when it equals the stored hash.  Node compares the two
"binary"/latin1 strings; latin1 is injective on bytes, so the comparison
is modelled on the byte lists.  A pbkdf2 error would also fail with
InvalidPassword; total modelling makes that branch unreachable. -/
def verifyPassword
    (pbkdf2 : String → List Byte → Nat → Nat → String → List Byte)
    (config : PBKDF2Config) (password : String) (hashText : List Char) :
    Except InvalidPassword Unit :=
  let combined := hexToBytes hashText
  let saltBytes := readUInt32BE combined 0
  let hashBytes := combined.length - saltBytes - 8
  let iterations := readUInt32BE combined 4
  let salt := (combined.drop 8).take saltBytes
  let hash := combined.drop (saltBytes + 8)
  if pbkdf2 password salt iterations hashBytes config.digest = hash then .ok ()
  else .error .mk

/-- A constant-output stand-in for `crypto.pbkdf2` (a deterministic total
function of the right arity), used only to evaluate the password-hashing
theorems at a concrete input. -/
def constPbkdf2 (pw : String) (salt : List Byte) (it kl : Nat)
    (_dg : String) : List Byte :=
  List.replicate kl ⟨(pw.length + salt.length + it) % 256, by omega⟩

/-- A constant-output stand-in for `crypto.randomBytes`, used only to
evaluate the password-hashing theorems at a concrete input. -/
def constRandomBytes (n : Nat) : List Byte := List.replicate n 7

/-- A small configuration used only to evaluate the password-hashing
theorems at a concrete input. -/
def testConfig : PBKDF2Config := ⟨3, 2, 5, "sha512"⟩

/-- The Cron produced by parsing "0 4 8 * 6", used to evaluate the parser
theorem at a concrete input. -/
def exampleParsedCron : Cron := ⟨none, {0}, {4}, {8}, ∅, {6}⟩

/-- A concrete Cron (days {8}, weekdays {2}) used to evaluate the matcher
theorem at a concrete input. -/
def exampleCron : Cron := ⟨none, ∅, ∅, {8}, ∅, {2}⟩

/-- Concrete date parts (day 8, weekday 5) used to evaluate the matcher
theorem at a concrete input. -/
def exampleParts : DateParts := ⟨30, 12, 8, 1, 5⟩

/-!
## Theorems

First the claims over the fork/race combinators of scope.ts, then the
spec-modelled Scope and Cause claims, then the Cron and password-hashing
claims.
-/

namespace EffectCore

/-- C1: for every task `t`, `forkDaemon t` equals `forkIn globalScope t` —
both construct the same `IFork` node of `t` whose target scope is
`some globalScope`, so daemon forking is definitionally forking into the
global scope. -/
theorem forkDaemon_eq_forkIn_globalScope {E A : Type} (t : Task E A) :
    forkDaemon t = forkIn globalScope t ∧
    forkDaemon t = .iFork t (some globalScope) ∧
    forkIn globalScope t = .iFork t (some globalScope) :=
  ⟨rfl, rfl, rfl⟩

/-- C4: `forkIn`, `forkDaemon`, `forkScopeWith` and `raceWith` are pure
constructors: each returns the corresponding task description node
(`IFork`, `IGetForkScope`, `IRaceWith`) holding the given tasks and
continuations unchanged — nothing is executed and the caller is never
suspended, the description does nothing until interpreted. -/
theorem fork_primitives_pure_constructors {E A : Type}
    (scope : Scope (Exit E A)) (t : Task E A)
    (f : Scope (Exit E A) → Task E A) (l r : Task E A)
    (lw rw : Exit E A → FiberHandle → Task E A)
    (sc : Option (Scope (Exit E A))) :
    forkIn scope t = .iFork t (some scope) ∧
    forkDaemon t = .iFork t (some globalScope) ∧
    forkScopeWith f = .iGetForkScope f ∧
    raceWith l r lw rw sc = .iRaceWith l r lw rw sc ∧
    (forkIn scope t).forkChild = some t ∧
    (forkIn scope t).forkScope = some (some scope) ∧
    (raceWith l r lw rw sc).raceLeft = some l ∧
    (raceWith l r lw rw sc).raceRight = some r ∧
    (raceWith l r lw rw sc).raceLeftWins = some lw ∧
    (raceWith l r lw rw sc).raceRightWins = some rw ∧
    (forkScopeWith f).getForkScopeK = some f :=
  ⟨rfl, rfl, rfl, rfl, rfl, rfl, rfl, rfl, rfl, rfl, rfl⟩

/-- C5: `raceWith` called without a scope argument records `none` as the
node's target scope (TypeScript defaults the parameter to `O.none`,
deferring creation of a fresh ephemeral scope to the interpreter), and
`raceWith` called with an explicit scope records exactly that
caller-supplied scope in the node. -/
theorem raceWith_scope_recording {E A : Type} (l r : Task E A)
    (lw rw : Exit E A → FiberHandle → Task E A) (s : Scope (Exit E A)) :
    raceWithDefault l r lw rw = .iRaceWith l r lw rw none ∧
    (raceWithDefault l r lw rw).raceScope = some none ∧
    raceWith l r lw rw (some s) = .iRaceWith l r lw rw (some s) ∧
    (raceWith l r lw rw (some s)).raceScope = some (some s) :=
  ⟨rfl, rfl, rfl, rfl⟩

/-- C6: the `IRaceWith` node constructed by `raceWith` carries the caller's
`leftWins`/`rightWins` continuations unmodified and adds no interruption of
the other branch: resolving the race (spec-modelled `raceResolve`) hands
the winner's Exit and the still-running loser's handle to exactly the
caller's continuation, and the composite continues as precisely the task
that continuation produces. -/
theorem raceWith_continuations_unchanged {E A : Type} (l r : Task E A)
    (lw rw : Exit E A → FiberHandle → Task E A) (sc : Option (Scope (Exit E A)))
    (e : Exit E A) (loser : FiberHandle) :
    (raceWith l r lw rw sc).raceLeftWins = some lw ∧
    (raceWith l r lw rw sc).raceRightWins = some rw ∧
    raceResolve (raceWith l r lw rw sc) true e loser = some (lw e loser) ∧
    raceResolve (raceWith l r lw rw sc) false e loser = some (rw e loser) :=
  ⟨rfl, rfl, rfl, rfl⟩

/-- C7: `forkScopeWith f` constructs an `IGetForkScope` node wrapping `f`
unchanged and constructs no `IFork` node: it exposes the ambient fork scope
to `f` without creating any fiber. -/
theorem forkScopeWith_no_fork {E A : Type} (f : Scope (Exit E A) → Task E A) :
    forkScopeWith f = .iGetForkScope f ∧
    (forkScopeWith f).getForkScopeK = some f ∧
    (forkScopeWith f).isFork = false :=
  ⟨rfl, rfl, rfl⟩

end EffectCore

namespace EffectCore

/-- Every Cause has at least one leaf failure. -/
theorem cause_leaves_ne_nil {E : Type} (c : Cause E) : c.leaves ≠ [] := by
  induction c with
  | fail e => simp [Cause.leaves]
  | die d => simp [Cause.leaves]
  | interrupt i => simp [Cause.leaves]
  | andThen a b iha ihb => simp [Cause.leaves, iha]
  | both a b iha ihb => simp [Cause.leaves, iha]

/-- C3: combination via `Both` is commutative (as a multiset of leaves, via
`List.Perm`) and associative (even as ordered leaf lists); combination via
`Then` is associative but not commutative (witnessed by two failures whose
ordered leaf lists differ); and no leaf failure is ever dropped when Causes
are combined — the leaves of a combination are exactly the concatenated
leaves of the parts, and every Cause flattens to a non-empty leaf list. -/
theorem cause_combination :
    (∀ (E : Type) (a b : Cause E),
      ((Cause.both a b).leaves).Perm ((Cause.both b a).leaves)) ∧
    (∀ (E : Type) (a b c : Cause E),
      (Cause.both a (Cause.both b c)).leaves =
        (Cause.both (Cause.both a b) c).leaves) ∧
    (∀ (E : Type) (a b c : Cause E),
      (Cause.andThen a (Cause.andThen b c)).leaves =
        (Cause.andThen (Cause.andThen a b) c).leaves) ∧
    ((Cause.andThen (.fail 0) (.fail 1) : Cause Nat).leaves ≠
      (Cause.andThen (.fail 1) (.fail 0) : Cause Nat).leaves) ∧
    (∀ (E : Type) (a b : Cause E),
      (Cause.andThen a b).leaves = a.leaves ++ b.leaves ∧
      (Cause.both a b).leaves = a.leaves ++ b.leaves) ∧
    (∀ (E : Type) (c : Cause E), c.leaves ≠ []) := by
  refine ⟨?_, ?_, ?_, ?_, ?_, ?_⟩
  · intro E a b
    simp [Cause.leaves, List.perm_append_comm]
  · intro E a b c
    simp [Cause.leaves, List.append_assoc]
  · intro E a b c
    simp [Cause.leaves, List.append_assoc]
  · decide
  · intro E a b
    exact ⟨rfl, rfl⟩
  · intro E c
    exact cause_leaves_ne_nil c

/-- Draining distributes over concatenation of registration lists,
reversing the block order. -/
theorem drainRev_append {F : Type} (l₁ l₂ : List (F ⊕ Scope F)) :
    drainRev (l₁ ++ l₂) = drainRev l₂ ++ drainRev l₁ := by
  induction l₁ with
  | nil => simp [drainRev]
  | cons e rest ih => simp [drainRev, ih]

/-- A scope holding only finalizers executes them in reverse registration
order. -/
theorem drainRev_map_inl {F : Type} (fs : List F) :
    drainRev (fs.map Sum.inl) = fs.reverse := by
  induction fs with
  | nil => simp [drainRev]
  | cons f rest ih => simp [drainRev, drainOne, ih]

/-- Strong induction (on sizeOf) behind the exactly-once property: in a
fully open scope tree the executed finalizers are a permutation of the
registered ones. -/
theorem executed_perm_allFins_aux {F : Type} :
    ∀ n : Nat,
      (∀ s : Scope F, sizeOf s ≤ n → Scope.allOpen s = true →
        (Scope.executed s).Perm (Scope.allFins s)) ∧
      (∀ es : List (F ⊕ Scope F), sizeOf es ≤ n → allOpenList es = true →
        (drainRev es).Perm (finsList es)) := by
  intro n
  induction n with
  | zero =>
      constructor
      · intro s hs _
        cases s with
        | node c es => simp at hs
      · intro es hs _
        cases es with
        | nil => simp [drainRev, finsList]
        | cons e rest => simp at hs
  | succ n ih =>
      constructor
      · intro s hs hopen
        cases s with
        | node c es =>
            cases c with
            | true => simp [Scope.allOpen] at hopen
            | false =>
                have hsz : sizeOf es ≤ n := by simp at hs; omega
                have hol : allOpenList es = true := by
                  simpa [Scope.allOpen] using hopen
                simpa [Scope.executed, Scope.allFins] using ih.2 es hsz hol
      · intro es hs hopen
        cases es with
        | nil => simp [drainRev, finsList]
        | cons e rest =>
            have hsz : sizeOf rest ≤ n := by simp at hs; omega
            have hsz1 : sizeOf e ≤ n := by simp at hs; omega
            have hopen1 : allOpenOne e = true := by
              simp [allOpenList] at hopen; exact hopen.1
            have hopenr : allOpenList rest = true := by
              simp [allOpenList] at hopen; exact hopen.2
            have p1 : (drainRev rest).Perm (finsList rest) := ih.2 rest hsz hopenr
            have p2 : (drainOne e).Perm (finsOne e) := by
              cases e with
              | inl f => simp [drainOne, finsOne]
              | inr s =>
                  have hszs : sizeOf s ≤ n := by simp at hsz1; omega
                  have : Scope.allOpen s = true := by
                    simpa [allOpenOne] using hopen1
                  simpa [drainOne, finsOne] using ih.1 s hszs this
            simpa [drainRev, finsList] using
              (p1.append p2).trans List.perm_append_comm

/-- In a fully open scope tree, closing executes a permutation of the
registered finalizers: each exactly once. -/
theorem executed_perm_allFins {F : Type} (s : Scope F)
    (h : Scope.allOpen s = true) :
    (Scope.executed s).Perm (Scope.allFins s) :=
  (executed_perm_allFins_aux (sizeOf s)).1 s le_rfl h

/-- C2: closing a Scope with finalizers `[f1..fn]` registered in that order
executes them as `[fn..f1]`; in a fully open tree every registered
finalizer executes exactly once (the executed list is a permutation of the
registered ones); a child scope reached during the drain is fully drained
before the entries registered before it (the parent's remaining
finalizers) run; and a second close executes nothing — closing is
idempotent. -/
theorem scope_close_behaviour {F : Type} :
    (∀ fs : List F,
      (Scope.close (.node false (fs.map Sum.inl))).1 = fs.reverse) ∧
    (∀ s : Scope F, Scope.allOpen s = true →
      ((Scope.close s).1).Perm (Scope.allFins s)) ∧
    (∀ (pre post : List (F ⊕ Scope F)) (c : Scope F),
      (Scope.close (.node false (pre ++ Sum.inr c :: post))).1 =
        drainRev post ++ (Scope.close c).1 ++ drainRev pre) ∧
    (∀ s : Scope F, (Scope.close (Scope.close s).2).1 = []) := by
  refine ⟨?_, ?_, ?_, ?_⟩
  · intro fs
    simp [Scope.close, Scope.executed, drainRev_map_inl]
  · intro s h
    exact executed_perm_allFins s h
  · intro pre post c
    have : drainRev (pre ++ Sum.inr c :: post) =
        drainRev post ++ Scope.executed c ++ drainRev pre := by
      rw [drainRev_append]
      simp [drainRev, drainOne, List.append_assoc]
    simp [Scope.close, Scope.executed, this]
  · intro s
    cases s with
    | node c es => simp [Scope.close, Scope.markClosed, Scope.executed]

/-- Concrete evaluation of the Scope model: two finalizers and a child
scope registered in order drain as child-first, reverse order. -/
theorem scope_close_example :
    (Scope.close (.node false
      [Sum.inl 1, Sum.inl 2, Sum.inr (.node false [Sum.inl 3])])).1 =
      ([3, 2, 1] : List Nat) := by
  simp [Scope.close, Scope.executed, drainRev, drainOne]

end EffectCore

/-- C9: when the minute, hour and month checks pass, Cron.matchParts
consults the day-of-month and weekday sets as follows — both non-empty:
true iff the day is in `days` OR the weekday is in `weekdays`; exactly one
non-empty: only that set is consulted; both empty: the day check always
passes. -/
theorem cron_match_day_weekday {cron : Cron} {parts : DateParts}
    (hm : cron.minutes = ∅ ∨ parts.minutes ∈ cron.minutes)
    (hh : cron.hours = ∅ ∨ parts.hours ∈ cron.hours)
    (hmo : cron.months = ∅ ∨ parts.month ∈ cron.months) :
    (cron.days ≠ ∅ → cron.weekdays ≠ ∅ →
      (cron.matchParts parts = true ↔
        parts.day ∈ cron.days ∨ parts.weekDay ∈ cron.weekdays)) ∧
    (cron.days ≠ ∅ → cron.weekdays = ∅ →
      (cron.matchParts parts = true ↔ parts.day ∈ cron.days)) ∧
    (cron.days = ∅ → cron.weekdays ≠ ∅ →
      (cron.matchParts parts = true ↔ parts.weekDay ∈ cron.weekdays)) ∧
    (cron.days = ∅ → cron.weekdays = ∅ → cron.matchParts parts = true) := by
  have h1 : ¬(cron.minutes.card ≠ 0 ∧ parts.minutes ∉ cron.minutes) := by
    rcases hm with h | h <;> simp [h, Finset.card_eq_zero]
  have h2 : ¬(cron.hours.card ≠ 0 ∧ parts.hours ∉ cron.hours) := by
    rcases hh with h | h <;> simp [h, Finset.card_eq_zero]
  have h3 : ¬(cron.months.card ≠ 0 ∧ parts.month ∉ cron.months) := by
    rcases hmo with h | h <;> simp [h, Finset.card_eq_zero]
  refine ⟨?_, ?_, ?_, ?_⟩ <;> intro hd hw
  · simp [Cron.matchParts, h1, h2, h3, Finset.card_eq_zero, hd, hw]
    exact ⟨fun h => h.2.2.2, fun h => ⟨hm, hh, hmo, h⟩⟩
  · simp [Cron.matchParts, h1, h2, h3, Finset.card_eq_zero, hd, hw]
    exact ⟨fun h => h.2.2.2, fun h => ⟨hm, hh, hmo, h⟩⟩
  · simp [Cron.matchParts, h1, h2, h3, Finset.card_eq_zero, hd, hw]
    exact ⟨fun h => h.2.2.2, fun h => ⟨hm, hh, hmo, h⟩⟩
  · simp [Cron.matchParts, h1, h2, h3, Finset.card_eq_zero, hd, hw]
    exact ⟨hm, hh, hmo⟩

/-- Witness for C9 at a concrete Cron and date: days {8}, weekdays {2},
date with day 8 and weekday 5, passing minute/hour/month checks because
those sets are empty. -/
theorem cron_match_day_weekday_witness :
    (exampleCron.days ≠ ∅ → exampleCron.weekdays ≠ ∅ →
      (exampleCron.matchParts exampleParts = true ↔
        exampleParts.day ∈ exampleCron.days ∨
          exampleParts.weekDay ∈ exampleCron.weekdays)) ∧
    (exampleCron.days ≠ ∅ → exampleCron.weekdays = ∅ →
      (exampleCron.matchParts exampleParts = true ↔
        exampleParts.day ∈ exampleCron.days)) ∧
    (exampleCron.days = ∅ → exampleCron.weekdays ≠ ∅ →
      (exampleCron.matchParts exampleParts = true ↔
        exampleParts.weekDay ∈ exampleCron.weekdays)) ∧
    (exampleCron.days = ∅ → exampleCron.weekdays = ∅ →
      exampleCron.matchParts exampleParts = true) :=
  @cron_match_day_weekday exampleCron exampleParts
    (by decide) (by decide) (by decide)

/-- Fuel-indexed induction behind the bounds of the stepped range loop. -/
theorem rangeStep_bounds_aux :
    ∀ (fuel : Nat) (lo hi st v : Int), (hi + 1 - lo).toNat ≤ fuel →
      v ∈ rangeStep lo hi st → lo ≤ v ∧ v ≤ hi := by
  intro fuel
  induction fuel with
  | zero =>
      intro lo hi st v hle hv
      rw [rangeStep.eq_def] at hv
      split at hv
      · omega
      · simp at hv
  | succ n ih =>
      intro lo hi st v hle hv
      rw [rangeStep.eq_def] at hv
      split at hv
      case isTrue h =>
        rcases List.mem_cons.mp hv with rfl | hv'
        · exact ⟨le_refl _, h.1⟩
        · have := ih (lo + st) hi st v (by omega) hv'
          omega
      case isFalse h => simp at hv

/-- Every value collected by the stepped range loop lies between its
bounds. -/
theorem rangeStep_bounds {lo hi st v : Int} (hv : v ∈ rangeStep lo hi st) :
    lo ≤ v ∧ v ≤ hi :=
  rangeStep_bounds_aux (hi + 1 - lo).toNat lo hi st v le_rfl hv

/-- handleRange only adds in-bounds values to an in-bounds accumulator. -/
theorem handleRange_bounds {opts : SegmentOptions} {input : List Char}
    {step : Option Int} {values out : Finset Int}
    {leftN : Option Int} {rightN : Option (Option Int)}
    (hv : ∀ v ∈ values, opts.minB ≤ v ∧ v ≤ opts.maxB)
    (h : handleRange opts input step values leftN rightN = .ok out) :
    ∀ v ∈ out, opts.minB ≤ v ∧ v ≤ opts.maxB := by
  cases leftN with
  | none => simp [handleRange] at h
  | some left =>
      rw [handleRange.eq_def] at h
      simp only at h
      split at h
      · simp at h
      case isFalse hleft =>
        rcases rightN with _ | (_ | right)
        · simp only [Except.ok.injEq] at h
          subst h
          intro v hvm
          rcases Finset.mem_insert.mp hvm with rfl | h1
          · omega
          · exact hv v h1
        · simp at h
        · simp only at h
          split at h
          · simp at h
          case isFalse hright =>
            split at h
            · simp at h
            case isFalse hlr =>
              simp only [Except.ok.injEq] at h
              subst h
              intro v hvm
              rcases Finset.mem_union.mp hvm with h1 | h1
              · exact hv v h1
              · have := rangeStep_bounds (List.mem_toFinset.mp h1)
                omega

/-- handleRaw only adds in-bounds values to an in-bounds accumulator. -/
theorem handleRaw_bounds {numInt : List Char → Option Int}
    {opts : SegmentOptions} {input raw : List Char} {step : Option Int}
    {values out : Finset Int}
    (hv : ∀ v ∈ values, opts.minB ≤ v ∧ v ≤ opts.maxB)
    (h : handleRaw numInt opts input raw step values = .ok out) :
    ∀ v ∈ out, opts.minB ≤ v ∧ v ≤ opts.maxB := by
  unfold handleRaw at h
  split at h
  · cases h
    intro v hvm
    rcases Finset.mem_union.mp hvm with h1 | h1
    · exact hv v h1
    · exact rangeStep_bounds (List.mem_toFinset.mp h1)
  · exact handleRange_bounds hv h

/-- Loop invariant of the field loop: from an in-bounds accumulator, a
successful parse yields an in-bounds set that is empty, below capacity, or
the untouched accumulator (the last case only when the field list was
empty, which parseSegment never passes with a non-empty accumulator). -/
theorem parseFields_invariant {numInt : List Char → Option Int}
    {opts : SegmentOptions} {input : List Char} :
    ∀ (fields : List (List Char)) (values out : Finset Int),
      (∀ v ∈ values, opts.minB ≤ v ∧ v ≤ opts.maxB) →
      parseFields numInt opts input fields values = .ok out →
      (∀ v ∈ out, opts.minB ≤ v ∧ v ≤ opts.maxB) ∧
        (out = ∅ ∨ (out.card : Int) < opts.maxB - opts.minB + 1 ∨ out = values) := by
  intro fields
  induction fields with
  | nil =>
      intro values out hval h
      simp only [parseFields, Except.ok.injEq] at h
      subst h
      exact ⟨hval, Or.inr (Or.inr rfl)⟩
  | cons field rest ih =>
      intro values out hval h
      rw [parseFields.eq_def] at h
      simp only at h
      split at h
      · -- bare "*": .ok ∅
        simp only [Except.ok.injEq] at h
        subst h
        exact ⟨by simp, Or.inl rfl⟩
      · split at h
        · simp at h
        case h_2 step hstep =>
          split at h
          · simp at h
          case h_2 values' hvals =>
            have hb' : ∀ v ∈ values', opts.minB ≤ v ∧ v ≤ opts.maxB :=
              handleRaw_bounds hval hvals
            split at h
            · -- capacity reached: .ok ∅
              simp only [Except.ok.injEq] at h
              subst h
              exact ⟨by simp, Or.inl rfl⟩
            case isFalse hcap =>
              have := ih values' out hb' h
              refine ⟨this.1, ?_⟩
              rcases this.2 with h1 | h1 | h1
              · exact Or.inl h1
              · exact Or.inr (Or.inl h1)
              · subst h1
                exact Or.inr (Or.inl (by omega))

/-- parseSegment invariant: every accepted segment's set is in-bounds and
is either empty or strictly below the segment's capacity — a set covering
the entire range is always normalized to the empty set. -/
theorem parseSegment_invariant {numInt : List Char → Option Int}
    {input : List Char} {opts : SegmentOptions} {out : Finset Int}
    (h : parseSegment numInt input opts = .ok out) :
    (∀ v ∈ out, opts.minB ≤ v ∧ v ≤ opts.maxB) ∧
      (out = ∅ ∨ (out.card : Int) < opts.maxB - opts.minB + 1) := by
  have := parseFields_invariant (splitAll ',' input) ∅ out (by simp) h
  refine ⟨this.1, ?_⟩
  rcases this.2 with h1 | h1 | h1
  · exact Or.inl h1
  · exact Or.inr h1
  · exact Or.inl h1

/-- C8: for every cron expression accepted by Cron.parse, each of the five
constraint sets contains only integers inside its segment's bounds (0-59,
0-23, 1-31, 1-12, 0-6), and a segment whose parsed values would cover its
entire range (a bare star or an exhaustive list/range) is normalized to
the empty set: an accepted non-empty set always has fewer elements than
the segment's capacity. -/
theorem cron_parse_bounds_and_normalization
    (numInt : List Char → Option Int) (s : List Char) (tz : Option String)
    (c : Cron) (h : Cron.parse numInt s tz = .ok c) :
    ((∀ v ∈ c.minutes, 0 ≤ v ∧ v ≤ 59) ∧ (c.minutes = ∅ ∨ c.minutes.card < 60)) ∧
    ((∀ v ∈ c.hours, 0 ≤ v ∧ v ≤ 23) ∧ (c.hours = ∅ ∨ c.hours.card < 24)) ∧
    ((∀ v ∈ c.days, 1 ≤ v ∧ v ≤ 31) ∧ (c.days = ∅ ∨ c.days.card < 31)) ∧
    ((∀ v ∈ c.months, 1 ≤ v ∧ v ≤ 12) ∧ (c.months = ∅ ∨ c.months.card < 12)) ∧
    ((∀ v ∈ c.weekdays, 0 ≤ v ∧ v ≤ 6) ∧ (c.weekdays = ∅ ∨ c.weekdays.card < 7)) := by
  unfold Cron.parse at h
  split at h
  case h_1 mi ho da mo we heq =>
    split at h <;> try simp at h
    case h_2 mins hmi =>
    split at h <;> try simp at h
    case h_2 hrs hho =>
    split at h <;> try simp at h
    case h_2 dys hda =>
    split at h <;> try simp at h
    case h_2 mos hmo =>
    split at h <;> try simp at h
    case h_2 wks hwe =>
    cases h
    dsimp only
    have i1 := parseSegment_invariant hmi
    have i2 := parseSegment_invariant hho
    have i3 := parseSegment_invariant hda
    have i4 := parseSegment_invariant hmo
    have i5 := parseSegment_invariant hwe
    simp only [minuteOptions, hourOptions, dayOptions, monthOptions,
      weekdayOptions] at i1 i2 i3 i4 i5
    refine ⟨⟨i1.1, ?_⟩, ⟨i2.1, ?_⟩, ⟨i3.1, ?_⟩, ⟨i4.1, ?_⟩, ⟨i5.1, ?_⟩⟩
    · rcases i1.2 with h1 | h1
      · exact Or.inl h1
      · exact Or.inr (by omega)
    · rcases i2.2 with h1 | h1
      · exact Or.inl h1
      · exact Or.inr (by omega)
    · rcases i3.2 with h1 | h1
      · exact Or.inl h1
      · exact Or.inr (by omega)
    · rcases i4.2 with h1 | h1
      · exact Or.inl h1
      · exact Or.inr (by omega)
    · rcases i5.2 with h1 | h1
      · exact Or.inl h1
      · exact Or.inr (by omega)
  case h_2 =>
    simp at h

/-- Witness for C8: the expression "0 4 8 * 6" is accepted (with the
all-digits numInt instance decNum) and every conclusion holds at the
resulting Cron. -/
theorem cron_parse_witness :
    ((∀ v ∈ exampleParsedCron.minutes, 0 ≤ v ∧ v ≤ 59) ∧
      (exampleParsedCron.minutes = ∅ ∨ exampleParsedCron.minutes.card < 60)) ∧
    ((∀ v ∈ exampleParsedCron.hours, 0 ≤ v ∧ v ≤ 23) ∧
      (exampleParsedCron.hours = ∅ ∨ exampleParsedCron.hours.card < 24)) ∧
    ((∀ v ∈ exampleParsedCron.days, 1 ≤ v ∧ v ≤ 31) ∧
      (exampleParsedCron.days = ∅ ∨ exampleParsedCron.days.card < 31)) ∧
    ((∀ v ∈ exampleParsedCron.months, 1 ≤ v ∧ v ≤ 12) ∧
      (exampleParsedCron.months = ∅ ∨ exampleParsedCron.months.card < 12)) ∧
    ((∀ v ∈ exampleParsedCron.weekdays, 0 ≤ v ∧ v ≤ 6) ∧
      (exampleParsedCron.weekdays = ∅ ∨ exampleParsedCron.weekdays.card < 7)) :=
  cron_parse_bounds_and_normalization decNum "0 4 8 * 6".data none
    exampleParsedCron (by decide)

/-- Hex digit encode/decode round-trip. -/
theorem hexDigitVal_hexDigitChar : ∀ n : Fin 16, hexDigitVal (hexDigitChar n) = some n := by
  decide

/-- Hex rendering round-trips: decoding what bytesToHex produced yields
the original bytes. -/
theorem hexToBytes_bytesToHex (l : List Byte) : hexToBytes (bytesToHex l) = l := by
  induction l with
  | nil => rfl
  | cons b rest ih =>
      have h1 := hexDigitVal_hexDigitChar ⟨b.val / 16, by have := b.isLt; omega⟩
      have h2 := hexDigitVal_hexDigitChar ⟨b.val % 16, by omega⟩
      simp only [bytesToHex, hexToBytes, h1, h2, ih]
      have hb : (⟨b.val / 16 * 16 + b.val % 16, by have := b.isLt; omega⟩ : Byte) = b :=
        Fin.ext (by simp only [Fin.val_mk]; omega)
      rw [hb]

/-- Reading offset 0 recovers a 32-bit value written big-endian at the
front of a buffer. -/
theorem readUInt32BE_atZero (v : Nat) (rest : List Byte)
    (hv : v < 4294967296) :
    readUInt32BE (uint32BE v ++ rest) 0 = v := by
  simp [uint32BE, readUInt32BE, List.getD]
  omega

/-- Reading offset 4 recovers a 32-bit value written big-endian right
after another 4-byte field. -/
theorem readUInt32BE_second (w v : Nat) (rest : List Byte)
    (hv : v < 4294967296) :
    readUInt32BE (uint32BE w ++ (uint32BE v ++ rest)) 4 = v := by
  simp [uint32BE, readUInt32BE, List.getD]
  omega

/-- C10: with pbkdf2 and randomBytes modelled as deterministic total
functions (pbkdf2 returning exactly the requested key length, randomBytes
exactly the requested byte count) and the configured salt length and
iteration count fitting 32 bits: verifyPassword succeeds on the hex string
hashPassword produced — the 8-byte header (salt length at offset 0,
iteration count at offset 4) lets it recover the exact salt, iteration
count and hash length used — and verifyPassword fails with InvalidPassword
whenever the recomputed hash differs from the stored one (on inputs of at
least 8 decoded bytes, where Node's header reads do not throw). -/
theorem crypto_hash_verify
    (pbkdf2 : String → List Byte → Nat → Nat → String → List Byte)
    (randomBytes : Nat → List Byte) (config : PBKDF2Config)
    (password : String) (hashText : List Char)
    (hlen : ∀ pw s it kl dg, (pbkdf2 pw s it kl dg).length = kl)
    (hrand : ∀ n, (randomBytes n).length = n)
    (hsalt : config.saltBytes < 4294967296)
    (hiter : config.iterations < 4294967296) :
    verifyPassword pbkdf2 config password
      (hashPassword pbkdf2 randomBytes config password) = .ok () ∧
    (8 ≤ (hexToBytes hashText).length →
      pbkdf2 password
          (((hexToBytes hashText).drop 8).take
            (readUInt32BE (hexToBytes hashText) 0))
          (readUInt32BE (hexToBytes hashText) 4)
          ((hexToBytes hashText).length -
            readUInt32BE (hexToBytes hashText) 0 - 8)
          config.digest ≠
        (hexToBytes hashText).drop (readUInt32BE (hexToBytes hashText) 0 + 8) →
      verifyPassword pbkdf2 config password hashText = .error .mk) := by
  constructor
  · have hsl : (randomBytes config.saltBytes).length = config.saltBytes :=
      hrand config.saltBytes
    have hhl : (pbkdf2 password (randomBytes config.saltBytes)
        config.iterations config.hashBytes config.digest).length =
        config.hashBytes := hlen password _ config.iterations _ _
    unfold verifyPassword hashPassword
    rw [hexToBytes_bytesToHex]
    dsimp only
    simp only [List.append_assoc]
    rw [readUInt32BE_atZero _ _ (by omega),
      readUInt32BE_second _ _ _ hiter]
    have h1 : (uint32BE (randomBytes config.saltBytes).length ++
        (uint32BE config.iterations ++ (randomBytes config.saltBytes ++
          pbkdf2 password (randomBytes config.saltBytes) config.iterations
            config.hashBytes config.digest))).drop 8 =
        randomBytes config.saltBytes ++
          pbkdf2 password (randomBytes config.saltBytes) config.iterations
            config.hashBytes config.digest := rfl
    have h4 : (uint32BE (randomBytes config.saltBytes).length ++
        (uint32BE config.iterations ++ (randomBytes config.saltBytes ++
          pbkdf2 password (randomBytes config.saltBytes) config.iterations
            config.hashBytes config.digest))).length -
        (randomBytes config.saltBytes).length - 8 =
        (pbkdf2 password (randomBytes config.saltBytes) config.iterations
          config.hashBytes config.digest).length := by
      simp [uint32BE]
      omega
    rw [Nat.add_comm ((randomBytes config.saltBytes).length) 8,
      ← List.drop_drop, h1, h4, List.take_left, List.drop_left, hhl,
      if_pos rfl]
  · intro _h8 hneq
    unfold verifyPassword
    dsimp only
    rw [if_neg hneq]

/-- Witness for C10 at the concrete stand-ins: the round-trip succeeds. -/
theorem crypto_hash_verify_witness :
    verifyPassword constPbkdf2 testConfig "pw"
      (hashPassword constPbkdf2 constRandomBytes testConfig "pw") = .ok () :=
  (crypto_hash_verify constPbkdf2 constRandomBytes testConfig "pw" []
    (fun _pw _s _it kl _dg => by simp [constPbkdf2])
    (fun n => by simp [constRandomBytes])
    (by decide) (by decide)).1
